import Mathlib

/-!
Shallow embedding of `gohex.go` (command gohex, repository wamuir/gohex).

The program reads a byte stream and prints a Go source file containing the
bytes as a `[]byte` composite literal.  All output is a stream of bytes, so
every piece of output is modelled as a `List Nat` of byte values (each < 256
on the domain of interest).  The functions below are translated line by line
from `gohex.go`:

  * `hextable`, `litB`, `chunkBody`, `encodeChunk`, `writeByteSlice`, `wbsOut`
    embed `writeByteSlice` (gohex.go lines 152-194);
  * `isLetterByte`, `isDigitByte`, `sanitizeChar`, `prependUnderscore`,
    `sanitize`, `openGoVar` embed `openGoVar` (lines 102-137);
  * `closeGoVar` (lines 141-146) and `declareGoPkg` (lines 90-98);
  * `gohexOut` embeds the output sequencing of `main` (lines 284-300);
  * `readFrag`, `wbsFrag` embed the `io.ReadFull` chunking of a fragmented
    reader (line 165).

Loops are written with an explicit fuel argument so that every definition is
structurally recursive and evaluates by `decide`/`rfl`; each caller passes
enough fuel (the loop consumes at least one input byte per iteration whenever
it continues, so `length + 1` always suffices, which the lemmas make precise).
-/

namespace Gohex

/-- Byte values of a string literal (all literals used here are ASCII, one
byte per character, so `Char.toNat` is the byte value). -/
def strBytes (s : String) : List Nat := s.toList.map Char.toNat

/-- Embeds the constant `hextable = "0123456789abcdef"` (gohex.go line 70),
as byte values. -/
def hextable : List Nat := strBytes ("0123456789abcdef")

/-- Indexing into `hextable`, as in `hextable[b>>4]` and `hextable[b&0x0f]`
(for a Go byte the index is always in range; the default is never reached on
the domain of interest). -/
def hexChar (n : Nat) : Nat := hextable.getD n 0

/-- The four bytes `'0' 'x' hextable[b>>4] hextable[b&0x0f]` built for one
input byte `b` (gohex.go lines 176-179); for a byte, `b>>4 = b / 16` and
`b & 0x0f = b % 16`. -/
def litB (b : Nat) : List Nat := [48, 120, hexChar (b / 16), hexChar (b % 16)]

/-- Output of the inner loop `for j = 1; j <= n; j++` of `writeByteSlice`
(gohex.go lines 172-188) on one chunk: every byte is written as its literal
followed by `hex[4] = ','` and `hex[5] = ' '`, except that for the last byte
of the chunk (`j == n`) `hex[5]` is replaced by `'\n'`. -/
def chunkBody : List Nat → List Nat
  | [] => []
  | [b] => litB b ++ [44, 10]
  | b :: rest => litB b ++ [44, 32] ++ chunkBody rest

/-- Output of one iteration of the outer loop of `writeByteSlice` on the chunk
it has read: `bytes.Repeat(tab, *i)` (line 170) followed by the inner loop.
Note the tabs are written before the chunk is inspected, so a zero-byte final
read still writes the tabs. -/
def encodeChunk (ind : Nat) (chunk : List Nat) : List Nat :=
  List.replicate ind 9 ++ chunkBody chunk

/-- Embeds `writeByteSlice` (gohex.go lines 152-194) together with its
observable environment:

  * the source is `bytes` followed by a terminal condition `terminal`
    (`none` = clean end of stream, `some e` = a read error `e`);
  * `io.ReadFull(r, buf)` with `len(buf) = c` returns a full chunk with a nil
    error while at least `c` bytes remain; otherwise it returns the remaining
    bytes together with `io.EOF`/`io.ErrUnexpectedEOF` (when `terminal` is
    `none`) or the read error itself (when `terminal` is `some e`);
  * the sink is modelled by the write-call counter `k`: the `k`-th call of
    `w.Write` returns the error `werr k`.  The Go code discards every result
    of `w.Write` (lines 170 and 187), which is why `werr` is consulted
    nowhere below;
  * the result is the triple (returned error, bytes written, final value of
    the write-call counter).

Each continuing iteration consumes `c ≥ 1` bytes, so fuel `bytes.length + 1`
makes the fuel-out branch unreachable. -/
def writeByteSlice (c ind : Nat) (werr : Nat → Option Nat) :
    Nat → List Nat → Option Nat → Nat → Option Nat × List Nat × Nat
  | 0, _, _, k => (none, [], k)
  | fuel + 1, bytes, terminal, k =>
    if 1 ≤ c ∧ c ≤ bytes.length then
      -- io.ReadFull filled the buffer: err = nil, write the line, loop.
      -- The iteration makes 1 + c write calls (tabs, then one per byte).
      let r := writeByteSlice c ind werr fuel (bytes.drop c) terminal (k + 1 + c)
      (r.1, encodeChunk ind (bytes.take c) ++ r.2.1, r.2.2)
    else
      match terminal with
      | some e =>
        -- err != nil && err != io.EOF && err != io.ErrUnexpectedEOF:
        -- return err before anything is written this iteration (line 167).
        (some e, [], k)
      | none =>
        -- err == io.EOF or io.ErrUnexpectedEOF: write the (possibly empty,
        -- possibly short) final chunk, then return nil (lines 190-192).
        (none, encodeChunk ind bytes, k + 1 + bytes.length)

/-- Bytes written by `writeByteSlice` on a stream that delivers `data` and
then a clean end of stream, with a sink whose writes all succeed. -/
def wbsOut (c ind : Nat) (data : List Nat) : List Nat :=
  (writeByteSlice c ind (fun _ => none) (data.length + 1) data none 0).2.1

/-- The chunks `io.ReadFull` delivers from a stream of `s` with buffer size
`c`: full chunks of `c` bytes, then the final short chunk when the length is
not a multiple of `c`.  No empty chunk is ever produced. -/
def chunksOfL (c : Nat) : Nat → List Nat → List (List Nat)
  | 0, _ => []
  | fuel + 1, s =>
    if s = [] then []
    else if s.length ≤ c then [s]
    else s.take c :: chunksOfL c fuel (s.drop c)

/-- Chunk decomposition of a byte sequence, with enough fuel. -/
def chunksOf (c : Nat) (s : List Nat) : List (List Nat) :=
  chunksOfL c (s.length + 1) s

/-- Embeds `unicode.IsLetter(rune(center[k]))` for a byte `center[k]`: the
code converts each single byte to a rune, so only code points 0-255 can
occur, and on that range the Unicode letters are `A`-`Z`, `a`-`z`, `ª` (170),
`µ` (181), `º` (186), `À`-`Ö` (192-214), `Ø`-`ö` (216-246) and `ø`-`ÿ`
(248-255). -/
def isLetterByte (b : Nat) : Bool :=
  (65 ≤ b && b ≤ 90) || (97 ≤ b && b ≤ 122) || b == 170 || b == 181 ||
  b == 186 || (192 ≤ b && b ≤ 214) || (216 ≤ b && b ≤ 246) ||
  (248 ≤ b && b ≤ 255)

/-- Embeds `unicode.IsDigit(rune(b))` for a byte `b`: on code points 0-255
the only decimal digits are `'0'`-`'9'`. -/
def isDigitByte (b : Nat) : Bool := 48 ≤ b && b ≤ 57

/-- One step of the identifier loop of `openGoVar` (gohex.go lines 124-131):
a byte that is neither a letter nor a digit is replaced by `'_'` (95). -/
def sanitizeChar (b : Nat) : Nat :=
  if isLetterByte b || isDigitByte b then b else 95

/-- The first-character rule of `openGoVar` (gohex.go lines 117-121): when
the first byte is neither a letter nor `'_'`, prepend `'_'`.  (The Go code
indexes `center[0]`, so it is only ever called with a non-empty name; on `[]`
this model returns `[]`.) -/
def prependUnderscore (v : List Nat) : List Nat :=
  match v with
  | [] => []
  | b :: _ => if isLetterByte b || b == 95 then v else 95 :: v

/-- The whole identifier sanitization performed by `openGoVar`: first-byte
rule, then the per-byte replacement loop (which also runs over a prepended
underscore; `'_'` is neither letter nor digit and is rewritten to itself). -/
def sanitize (v : List Nat) : List Nat :=
  (prependUnderscore v).map sanitizeChar

/-- Bytes of `"var "` (gohex.go line 107). -/
def goLeft : List Nat := strBytes ("var ")

/-- Bytes of the ten-byte constant `right` of `openGoVar` (gohex.go line
109): space, equals, space, two square brackets, the word byte, and the
opening brace. -/
def goRight : List Nat := strBytes (" = []byte\x7b")

/-- Embeds `openGoVar` (gohex.go lines 102-137).  The declaration buffer is
allocated with `make([]byte, 4+len(center)+10)` before the underscore may be
prepended, so its size is `4 + v.length + 10`; the final
`copy(declaration[len(left)+len(center):], right)` therefore copies only
`min(10, 4 + v.length + 10 - (4 + center.length))` bytes of `right`, which
truncates the closing brace whenever `center` grew by the prepended
underscore. -/
def openGoVar (ind : Nat) (v : List Nat) : List Nat :=
  let center := prependUnderscore v
  let decl := goLeft ++ center.map sanitizeChar ++
    goRight.take (4 + v.length + 10 - (4 + center.length))
  List.replicate (ind - 1) 9 ++ decl ++ [10]

/-- Embeds `closeGoVar` (gohex.go lines 141-146). -/
def closeGoVar (ind : Nat) : List Nat :=
  List.replicate (ind - 1) 9 ++ strBytes ("\x7d\n")

/-- Embeds `declareGoPkg` (gohex.go lines 90-98): `"package " + p + "\n\n"`
(the buffer arithmetic is exact, nothing is truncated). -/
def declareGoPkg (p : List Nat) : List Nat :=
  strBytes ("package ") ++ p ++ [10, 10]

/-- Output sequencing of `main` (gohex.go lines 284-300): package declaration
when not stripped and the package name is non-empty, variable declaration and
closing brace when not stripped, body always. -/
def gohexOut (c ind : Nat) (p v : List Nat) (strip : Bool)
    (data : List Nat) : List Nat :=
  (if strip = false ∧ p ≠ [] then declareGoPkg p else []) ++
  (if strip = false then openGoVar ind v else []) ++
  wbsOut c ind data ++
  (if strip = false then closeGoVar ind else [])

/-- Value of a lowercase hexadecimal digit byte. -/
def hexVal (d : Nat) : Nat :=
  if 48 ≤ d ∧ d ≤ 57 then d - 48
  else if 97 ≤ d ∧ d ≤ 102 then d - 87 else 0

/-- Whether `d` is a lowercase hexadecimal digit byte (`0`-`9`, `a`-`f`). -/
def isLowerHexDigit (d : Nat) : Bool :=
  (48 ≤ d && d ≤ 57) || (97 ≤ d && d ≤ 102)

/-- Re-parses every hexadecimal literal of the form `0xHH` out of a byte
stream, in order: at `'0' 'x' d1 d2` the byte `16 * hexVal d1 + hexVal d2` is
collected and scanning resumes after the four bytes; any other byte is
skipped.  This is the reading direction of the round-trip law of the spec. -/
def parseHex : List Nat → List Nat
  | [] => []
  | [_] => []
  | [_, _] => []
  | [_, _, _] => []
  | a :: b :: d1 :: d2 :: rest =>
    if a = 48 ∧ b = 120 then (hexVal d1 * 16 + hexVal d2) :: parseHex rest
    else parseHex (b :: d1 :: d2 :: rest)

/-- Splits a byte stream at every newline byte (10): the newline-terminated
lines, followed by the trailing fragment after the last newline (empty when
the stream ends with a newline or is empty). -/
def splitNl : List Nat → List (List Nat)
  | [] => [[]]
  | b :: rest =>
    if b = 10 then [] :: splitNl rest
    else
      match splitNl rest with
      | [] => [[b]]
      | l :: ls => (b :: l) :: ls

/-- Number of bytes one `Read` call delivers: bounded by the space left in
the buffer, by what the fragmenting reader chooses to deliver on its `k`-th
call (at least one byte while data remains, since a reader that keeps
returning zero bytes with a nil error would make `io.ReadAtLeast` loop
forever), and by the data remaining. -/
def fragAmount (sched : Nat → Nat) (k space : Nat) (bytes : List Nat) : Nat :=
  min space (min (max 1 (sched k)) bytes.length)

/-- One call of `io.ReadFull`'s inner read loop against a fragmenting reader:
`space` buffer bytes remain to be filled, `bytes` is the data the reader has
left, and the `k`-th `Read` call delivers at most `max 1 (sched k)` bytes (a
reader must deliver at least one byte or report end of stream, otherwise
`io.ReadAtLeast` would loop forever).  Returns the bytes read, the next read
call index and the remaining data.  Fuel `space` suffices since every call
delivers at least one byte while data remains. -/
def readFrag (sched : Nat → Nat) :
    Nat → Nat → Nat → List Nat → List Nat × Nat × List Nat
  | 0, _, k, bytes => ([], k, bytes)
  | fuel + 1, space, k, bytes =>
    if space = 0 ∨ bytes = [] then ([], k, bytes)
    else
      let m := fragAmount sched k space bytes
      let r := readFrag sched fuel (space - m) (k + 1) (bytes.drop m)
      (bytes.take m ++ r.1, r.2.1, r.2.2)

/-- The loop of `writeByteSlice` run against a fragmenting reader: each
iteration assembles its chunk with `io.ReadFull` (`readFrag` with a buffer of
`c` bytes), continues on a full chunk (nil error) and stops after a short or
empty chunk (end of stream). -/
def wbsFragLoop (c ind : Nat) (sched : Nat → Nat) :
    Nat → Nat → List Nat → List Nat
  | 0, _, _ => []
  | fuel + 1, k, bytes =>
    let r := readFrag sched c c k bytes
    if r.1.length = c ∧ 1 ≤ c then
      encodeChunk ind r.1 ++ wbsFragLoop c ind sched fuel r.2.1 r.2.2
    else
      encodeChunk ind r.1

/-- Bytes written by `writeByteSlice` when the source delivers `bytes` but
fragments its reads according to `sched`. -/
def wbsFrag (c ind : Nat) (sched : Nat → Nat) (bytes : List Nat) : List Nat :=
  wbsFragLoop c ind sched (bytes.length + 1) 0 bytes

/-! Helper lemmas about the hexadecimal digit table. -/

lemma hextable_length : hextable.length = 16 := by decide

lemma hexChar_lt_16 : ∀ n, n < 16 →
    (48 ≤ hexChar n ∧ hexChar n ≤ 57) ∨ (97 ≤ hexChar n ∧ hexChar n ≤ 102) := by
  decide

lemma hexChar_default (n : Nat) (h : 16 ≤ n) : hexChar n = 0 := by
  unfold hexChar
  exact List.getD_eq_default _ _ (hextable_length ▸ h)

lemma hexChar_cases (n : Nat) :
    hexChar n = 0 ∨ (48 ≤ hexChar n ∧ hexChar n ≤ 57) ∨
      (97 ≤ hexChar n ∧ hexChar n ≤ 102) := by
  by_cases h : n < 16
  · exact Or.inr (hexChar_lt_16 n h)
  · exact Or.inl (hexChar_default n (by omega))

lemma hexChar_ne_120 (n : Nat) : hexChar n ≠ 120 := by
  rcases hexChar_cases n with h | h | h <;> omega

lemma hexChar_ne_10 (n : Nat) : hexChar n ≠ 10 := by
  rcases hexChar_cases n with h | h | h <;> omega

lemma hexChar_ne_9 (n : Nat) : hexChar n ≠ 9 := by
  rcases hexChar_cases n with h | h | h <;> omega

lemma hexVal_hexChar : ∀ n, n < 16 → hexVal (hexChar n) = n := by decide

/-! Helper lemmas about the literal re-parser. -/

lemma parseHex_skip (x : Nat) (r : List Nat) (hx : x ≠ 48) :
    parseHex (x :: r) = parseHex r := by
  match r with
  | [] => rfl
  | [_] => rfl
  | [_, _] => rfl
  | b :: d1 :: d2 :: rest =>
    show (if x = 48 ∧ b = 120 then _ else parseHex (b :: d1 :: d2 :: rest))
        = parseHex (b :: d1 :: d2 :: rest)
    rw [if_neg]
    intro hcon
    exact hx hcon.1

lemma parseHex_lit (d1 d2 : Nat) (r : List Nat) :
    parseHex (48 :: 120 :: d1 :: d2 :: r)
      = (hexVal d1 * 16 + hexVal d2) :: parseHex r := by
  show (if (48 : Nat) = 48 ∧ (120 : Nat) = 120 then
      (hexVal d1 * 16 + hexVal d2) :: parseHex r else _) = _
  rw [if_pos ⟨rfl, rfl⟩]

lemma parseHex_litB (b : Nat) (hb : b < 256) (r : List Nat) :
    parseHex (litB b ++ r) = b :: parseHex r := by
  show parseHex (48 :: 120 :: hexChar (b / 16) :: hexChar (b % 16) :: r) = _
  rw [parseHex_lit, hexVal_hexChar _ (by omega), hexVal_hexChar _ (by omega)]
  congr 1
  omega

lemma parseHex_chunkBody (ch : List Nat) (h : ∀ b ∈ ch, b < 256)
    (r : List Nat) : parseHex (chunkBody ch ++ r) = ch ++ parseHex r := by
  induction ch with
  | nil => rfl
  | cons b rest ih =>
    match rest with
    | [] =>
      show parseHex ((litB b ++ [44, 10]) ++ r) = b :: parseHex r
      rw [List.append_assoc, parseHex_litB b (h b (by simp)) ([44, 10] ++ r)]
      show b :: parseHex (44 :: 10 :: r) = b :: parseHex r
      rw [parseHex_skip 44 _ (by omega), parseHex_skip 10 _ (by omega)]
    | x :: t =>
      show parseHex ((litB b ++ [44, 32] ++ chunkBody (x :: t)) ++ r)
          = (b :: x :: t) ++ parseHex r
      rw [List.append_assoc, List.append_assoc,
        parseHex_litB b (h b (by simp)) _]
      show b :: parseHex (44 :: 32 :: (chunkBody (x :: t) ++ r)) = _
      rw [parseHex_skip 44 _ (by omega), parseHex_skip 32 _ (by omega),
        ih (fun y hy => h y (List.mem_cons_of_mem b hy))]
      rfl

lemma parseHex_tabs (n : Nat) (r : List Nat) :
    parseHex (List.replicate n 9 ++ r) = parseHex r := by
  induction n with
  | zero => rfl
  | succ m ih =>
    rw [List.replicate_succ, List.cons_append, parseHex_skip 9 _ (by omega), ih]

lemma parseHex_encodeChunk (ind : Nat) (ch : List Nat)
    (h : ∀ b ∈ ch, b < 256) (r : List Nat) :
    parseHex (encodeChunk ind ch ++ r) = ch ++ parseHex r := by
  show parseHex ((List.replicate ind 9 ++ chunkBody ch) ++ r) = _
  rw [List.append_assoc, parseHex_tabs, parseHex_chunkBody ch h r]

/-! Helper lemmas: counting literals via their unique `'x'` byte. -/

lemma count_litB (b : Nat) : (litB b).count 120 = 1 := by
  show List.count 120 [48, 120, hexChar (b / 16), hexChar (b % 16)] = 1
  simp [List.count_cons, hexChar_ne_120]

lemma count_chunkBody (ch : List Nat) : (chunkBody ch).count 120 = ch.length := by
  induction ch with
  | nil => rfl
  | cons b rest ih =>
    match rest with
    | [] =>
      show ((litB b ++ [44, 10]).count 120) = 1
      rw [List.count_append, count_litB]
      rfl
    | x :: t =>
      show ((litB b ++ [44, 32] ++ chunkBody (x :: t)).count 120) = _
      rw [List.count_append, List.count_append, count_litB, ih]
      show 1 + 0 + (x :: t).length = (b :: x :: t).length
      simp [Nat.add_comm]

lemma count_encodeChunk (ind : Nat) (ch : List Nat) :
    (encodeChunk ind ch).count 120 = ch.length := by
  show (List.replicate ind 9 ++ chunkBody ch).count 120 = ch.length
  rw [List.count_append, count_chunkBody, List.count_replicate]
  simp

/-! Helper lemmas about the encoder loop. -/

lemma writeByteSlice_succ_full (c ind : Nat) (werr : Nat → Option Nat)
    (fuel : Nat) (bytes : List Nat) (t : Option Nat) (k : Nat)
    (hg : 1 ≤ c ∧ c ≤ bytes.length) :
    writeByteSlice c ind werr (fuel + 1) bytes t k
      = ((writeByteSlice c ind werr fuel (bytes.drop c) t (k + 1 + c)).1,
          encodeChunk ind (bytes.take c) ++
            (writeByteSlice c ind werr fuel (bytes.drop c) t (k + 1 + c)).2.1,
          (writeByteSlice c ind werr fuel (bytes.drop c) t (k + 1 + c)).2.2) := by
  show (if 1 ≤ c ∧ c ≤ bytes.length then _ else _) = _
  rw [if_pos hg]

lemma writeByteSlice_succ_stop (c ind : Nat) (werr : Nat → Option Nat)
    (fuel : Nat) (bytes : List Nat) (t : Option Nat) (k : Nat)
    (hg : ¬(1 ≤ c ∧ c ≤ bytes.length)) :
    writeByteSlice c ind werr (fuel + 1) bytes t k
      = match t with
        | some e => (some e, [], k)
        | none => (none, encodeChunk ind bytes, k + 1 + bytes.length) := by
  show (if 1 ≤ c ∧ c ≤ bytes.length then _ else _) = _
  rw [if_neg hg]

lemma writeByteSlice_fst (c ind : Nat) (werr : Nat → Option Nat)
    (t : Option Nat) (hc : 1 ≤ c) :
    ∀ fuel bytes k, bytes.length < fuel →
      (writeByteSlice c ind werr fuel bytes t k).1 = t := by
  intro fuel
  induction fuel with
  | zero => intro bytes k h; omega
  | succ f ih =>
    intro bytes k h
    by_cases hg : 1 ≤ c ∧ c ≤ bytes.length
    · rw [writeByteSlice_succ_full c ind werr f bytes t k hg]
      exact ih (bytes.drop c) (k + 1 + c) (by simp; omega)
    · rw [writeByteSlice_succ_stop c ind werr f bytes t k hg]
      cases t <;> rfl

lemma chunksOfL_succ (c fuel : Nat) (s : List Nat) :
    chunksOfL c (fuel + 1) s
      = if s = [] then []
        else if s.length ≤ c then [s]
        else s.take c :: chunksOfL c fuel (s.drop c) := rfl

lemma writeByteSlice_out (c ind : Nat) (werr : Nat → Option Nat)
    (hc : 1 ≤ c) :
    ∀ fuel bytes k, bytes.length < fuel →
      (writeByteSlice c ind werr fuel bytes none k).2.1
        = ((chunksOfL c fuel bytes).map (encodeChunk ind)).flatten
          ++ (if bytes.length % c = 0 then List.replicate ind 9 else []) := by
  intro fuel
  induction fuel with
  | zero => intro bytes k h; omega
  | succ f ih =>
    intro bytes k h
    by_cases hg : 1 ≤ c ∧ c ≤ bytes.length
    · rw [writeByteSlice_succ_full c ind werr f bytes none k hg,
        chunksOfL_succ]
      have hne : bytes ≠ [] := by
        intro hb
        rw [hb] at hg
        simp at hg
        omega
      rw [if_neg hne]
      by_cases hlen : bytes.length ≤ c
      · -- exactly one full chunk: bytes.length = c
        have hbc : bytes.length = c := by omega
        rw [if_pos hlen]
        have hdrop : bytes.drop c = [] := by
          apply List.eq_nil_of_length_eq_zero
          simp
          omega
        have htake : bytes.take c = bytes := by
          rw [← hbc]
          exact List.take_length bytes
        rw [ih (bytes.drop c) (k + 1 + c) (by simp; omega), hdrop, htake]
        have hmod0 : bytes.length % c = 0 := by
          rw [hbc]
          exact Nat.mod_self c
        have hf : 1 ≤ f := by omega
        match f, hf with
        | g + 1, _ =>
          rw [chunksOfL_succ]
          simp [hmod0]
      · -- a full chunk, then more data
        rw [if_neg hlen]
        rw [ih (bytes.drop c) (k + 1 + c) (by simp; omega)]
        have hmod : (bytes.drop c).length % c = bytes.length % c := by
          have hcl : c ≤ bytes.length := hg.2
          simp only [List.length_drop]
          conv_rhs => rw [← Nat.sub_add_cancel hcl]
          rw [Nat.add_mod_right]
        rw [hmod]
        simp [List.append_assoc]
    · rw [writeByteSlice_succ_stop c ind werr f bytes none k hg]
      match bytes, hg with
      | [], _ =>
        show encodeChunk ind [] = _
        rw [chunksOfL_succ, if_pos rfl]
        simp [encodeChunk, chunkBody]
      | b :: t, hg =>
        have hlt : (b :: t).length < c := by
          rcases Nat.lt_or_ge (b :: t).length c with h1 | h1
          · exact h1
          · exact absurd ⟨hc, h1⟩ hg
        show encodeChunk ind (b :: t) = _
        rw [chunksOfL_succ, if_neg (by simp), if_pos (by omega)]
        have hmodne : (b :: t).length % c ≠ 0 := by
          rw [Nat.mod_eq_of_lt hlt]
          simp
        rw [if_neg hmodne]
        simp

lemma wbsOut_eq (c ind : Nat) (S : List Nat) (hc : 1 ≤ c) :
    wbsOut c ind S
      = ((chunksOf c S).map (encodeChunk ind)).flatten
        ++ (if S.length % c = 0 then List.replicate ind 9 else []) :=
  writeByteSlice_out c ind (fun _ => none) hc (S.length + 1) S 0 (by omega)

/-! Helper lemmas about the chunk decomposition. -/

lemma chunksOfL_flatten (c : Nat) (hc : 1 ≤ c) :
    ∀ fuel s, s.length < fuel → (chunksOfL c fuel s).flatten = s := by
  intro fuel
  induction fuel with
  | zero => intro s h; omega
  | succ f ih =>
    intro s h
    rw [chunksOfL_succ]
    by_cases hnil : s = []
    · rw [if_pos hnil, hnil]
      rfl
    · rw [if_neg hnil]
      by_cases hlen : s.length ≤ c
      · rw [if_pos hlen]
        simp
      · rw [if_neg hlen]
        have hd : (s.drop c).length < f := by simp; omega
        simp [ih (s.drop c) hd]

lemma chunksOfL_mem_ne_nil (c : Nat) (hc : 1 ≤ c) :
    ∀ fuel s, s.length < fuel → ∀ ch ∈ chunksOfL c fuel s, ch ≠ [] := by
  intro fuel
  induction fuel with
  | zero => intro s h; omega
  | succ f ih =>
    intro s h ch hch
    rw [chunksOfL_succ] at hch
    by_cases hnil : s = []
    · rw [if_pos hnil] at hch
      simp at hch
    · rw [if_neg hnil] at hch
      by_cases hlen : s.length ≤ c
      · rw [if_pos hlen] at hch
        simp at hch
        rw [hch]
        exact hnil
      · rw [if_neg hlen] at hch
        rcases List.mem_cons.mp hch with h1 | h1
        · rw [h1]
          intro htk
          have := congrArg List.length htk
          simp only [List.length_take, List.length_nil] at this
          omega
        · exact ih (s.drop c) (by simp; omega) ch h1

lemma chunksOfL_mem_bytes (c : Nat) (hc : 1 ≤ c) (fuel : Nat) (s : List Nat)
    (h : s.length < fuel) (ch : List Nat) (hch : ch ∈ chunksOfL c fuel s)
    (b : Nat) (hb : b ∈ ch) : b ∈ s := by
  have := chunksOfL_flatten c hc fuel s h
  rw [← this]
  exact List.mem_flatten.mpr ⟨ch, hch, hb⟩

lemma chunksOfL_dropLast_length (c : Nat) (hc : 1 ≤ c) :
    ∀ fuel s, s.length < fuel →
      ∀ ch ∈ (chunksOfL c fuel s).dropLast, ch.length = c := by
  intro fuel
  induction fuel with
  | zero => intro s h; omega
  | succ f ih =>
    intro s h ch hch
    rw [chunksOfL_succ] at hch
    by_cases hnil : s = []
    · rw [if_pos hnil] at hch
      simp at hch
    · rw [if_neg hnil] at hch
      by_cases hlen : s.length ≤ c
      · rw [if_pos hlen] at hch
        simp at hch
      · rw [if_neg hlen] at hch
        have hrest : chunksOfL c f (s.drop c) ≠ [] := by
          have hd : (s.drop c).length < f := by simp; omega
          intro hemp
          have hfl := chunksOfL_flatten c hc f (s.drop c) hd
          rw [hemp] at hfl
          have : (s.drop c).length = 0 := by rw [← hfl]; rfl
          simp at this
          omega
        match hrest2 : chunksOfL c f (s.drop c), hrest with
        | x :: xs, _ =>
          rw [hrest2] at hch
          rw [List.dropLast_cons₂] at hch
          rcases List.mem_cons.mp hch with h1 | h1
          · rw [h1]
            simp only [List.length_take]
            omega
          · have := ih (s.drop c) (by simp; omega)
            rw [hrest2] at this
            exact this ch h1

lemma chunksOfL_getLast_length (c : Nat) (hc : 1 ≤ c) :
    ∀ fuel s, s.length < fuel →
      ∀ l, (chunksOfL c fuel s).getLast? = some l →
        l.length = if s.length % c = 0 then c else s.length % c := by
  intro fuel
  induction fuel with
  | zero => intro s h; omega
  | succ f ih =>
    intro s h l hl
    rw [chunksOfL_succ] at hl
    by_cases hnil : s = []
    · rw [if_pos hnil] at hl
      simp at hl
    · rw [if_neg hnil] at hl
      by_cases hlen : s.length ≤ c
      · rw [if_pos hlen] at hl
        simp at hl
        rw [← hl]
        by_cases heq : s.length = c
        · rw [heq, Nat.mod_self, if_pos rfl]
        · have hlt : s.length < c := by omega
          rw [Nat.mod_eq_of_lt hlt, if_neg]
          have : s.length ≠ 0 := by
            intro h0
            exact hnil (List.eq_nil_of_length_eq_zero h0)
          exact this
      · rw [if_neg hlen] at hl
        have hd : (s.drop c).length < f := by simp; omega
        have hrest : chunksOfL c f (s.drop c) ≠ [] := by
          intro hemp
          have hfl := chunksOfL_flatten c hc f (s.drop c) hd
          rw [hemp] at hfl
          have : (s.drop c).length = 0 := by rw [← hfl]; rfl
          simp at this
          omega
        have hl2 : (chunksOfL c f (s.drop c)).getLast? = some l := by
          match hrest2 : chunksOfL c f (s.drop c), hrest with
          | x :: xs, _ =>
            rw [hrest2, List.getLast?_cons_cons] at hl
            exact hl
        have := ih (s.drop c) hd l hl2
        have hmod : (s.drop c).length % c = s.length % c := by
          simp only [List.length_drop]
          conv_rhs => rw [← Nat.sub_add_cancel (by omega : c ≤ s.length)]
          rw [Nat.add_mod_right]
        rw [hmod] at this
        exact this

/-! Helper lemmas about the shape of one encoded line. -/

lemma intercalate_singleton (sep x : List Nat) :
    List.intercalate sep [x] = x := by
  simp [List.intercalate, List.intersperse]

lemma intercalate_cons₂ (sep x : List Nat) (xs : List (List Nat))
    (hxs : xs ≠ []) :
    List.intercalate sep (x :: xs) = x ++ sep ++ List.intercalate sep xs := by
  match xs, hxs with
  | y :: t, _ =>
    simp [List.intercalate, List.intersperse_cons_cons, List.append_assoc]

lemma chunkBody_intercalate (ch : List Nat) (h : ch ≠ []) :
    chunkBody ch = List.intercalate [44, 32] (ch.map litB) ++ [44, 10] := by
  induction ch with
  | nil => exact absurd rfl h
  | cons b rest ih =>
    match rest with
    | [] =>
      show litB b ++ [44, 10] = List.intercalate [44, 32] [litB b] ++ [44, 10]
      rw [intercalate_singleton]
    | x :: t =>
      show litB b ++ [44, 32] ++ chunkBody (x :: t) = _
      rw [ih (by simp)]
      conv_rhs => rw [List.map_cons]
      rw [intercalate_cons₂ [44, 32] (litB b) (List.map litB (x :: t))
        (by simp)]
      simp [List.append_assoc]

lemma mem_litB (b x : Nat) (hx : x ∈ litB b) :
    x = 48 ∨ x = 120 ∨ ∃ n, x = hexChar n := by
  have h4 : x = 48 ∨ x = 120 ∨ x = hexChar (b / 16) ∨ x = hexChar (b % 16) := by
    simpa [litB] using hx
  rcases h4 with h | h | h | h
  · exact Or.inl h
  · exact Or.inr (Or.inl h)
  · exact Or.inr (Or.inr ⟨b / 16, h⟩)
  · exact Or.inr (Or.inr ⟨b % 16, h⟩)

lemma litB_not_ten (b : Nat) : 10 ∉ litB b := by
  intro hx
  rcases mem_litB b 10 hx with h | h | ⟨n, h⟩
  · omega
  · omega
  · exact hexChar_ne_10 n h.symm

lemma chunkBody_decomp (ch : List Nat) (h : ch ≠ []) :
    ∃ body, chunkBody ch = body ++ [10] ∧ 10 ∉ body ∧
      ∃ t, body = 48 :: t := by
  induction ch with
  | nil => exact absurd rfl h
  | cons b rest ih =>
    match rest with
    | [] =>
      refine ⟨litB b ++ [44], ?_, ?_, ?_⟩
      · show litB b ++ [44, 10] = litB b ++ [44] ++ [10]
        simp
      · intro hmem
        rcases List.mem_append.mp hmem with h1 | h1
        · exact litB_not_ten b h1
        · simp at h1
      · exact ⟨120 :: hexChar (b / 16) :: hexChar (b % 16) :: [44], rfl⟩
    | x :: t =>
      rcases ih (by simp) with ⟨body, hb1, hb2, hb3⟩
      refine ⟨litB b ++ [44, 32] ++ body, ?_, ?_, ?_⟩
      · show litB b ++ [44, 32] ++ chunkBody (x :: t) = _
        rw [hb1]
        simp [List.append_assoc]
      · intro hmem
        rcases List.mem_append.mp hmem with h1 | h1
        · rcases List.mem_append.mp h1 with h2 | h2
          · exact litB_not_ten b h2
          · simp at h2
        · exact hb2 h1
      · exact ⟨120 :: hexChar (b / 16) :: hexChar (b % 16) :: [44, 32] ++ body,
          rfl⟩

lemma encodeChunk_decomp (ind : Nat) (ch : List Nat) (h : ch ≠ []) :
    ∃ body, encodeChunk ind ch = (List.replicate ind 9 ++ body) ++ [10] ∧
      10 ∉ List.replicate ind 9 ++ body ∧ ∃ t, body = 48 :: t := by
  rcases chunkBody_decomp ch h with ⟨body, hb1, hb2, hb3⟩
  refine ⟨body, ?_, ?_, hb3⟩
  · show List.replicate ind 9 ++ chunkBody ch = _
    rw [hb1]
    simp [List.append_assoc]
  · intro hmem
    rcases List.mem_append.mp hmem with h1 | h1
    · have := List.eq_of_mem_replicate h1
      omega
    · exact hb2 h1

/-! Helper lemmas about line splitting and leading tabs. -/

lemma splitNl_cons_ne (b : Nat) (r : List Nat) (hb : b ≠ 10) :
    splitNl (b :: r)
      = match splitNl r with
        | [] => [[b]]
        | l :: ls => (b :: l) :: ls := by
  show (if b = 10 then _ else _) = _
  rw [if_neg hb]

lemma splitNl_cons_nl (r : List Nat) : splitNl (10 :: r) = [] :: splitNl r := by
  show (if (10 : Nat) = 10 then _ else _) = _
  rw [if_pos rfl]

lemma splitNl_ne_nil (a : List Nat) : splitNl a ≠ [] := by
  match a with
  | [] => simp [splitNl]
  | b :: r =>
    by_cases hb : b = 10
    · rw [hb, splitNl_cons_nl]
      simp
    · rw [splitNl_cons_ne b r hb]
      match splitNl r with
      | [] => simp
      | l :: ls => simp

lemma splitNl_append_line (a r : List Nat) (ha : 10 ∉ a) :
    splitNl (a ++ 10 :: r) = a :: splitNl r := by
  induction a with
  | nil =>
    show splitNl (10 :: r) = [] :: splitNl r
    exact splitNl_cons_nl r
  | cons b a' ih =>
    have hb : b ≠ 10 := by
      intro hb
      exact ha (by rw [hb]; simp)
    have ih2 := ih (fun hm => ha (List.mem_cons_of_mem b hm))
    rw [List.cons_append, splitNl_cons_ne b _ hb, ih2]

lemma splitNl_no_nl (a : List Nat) (ha : 10 ∉ a) : splitNl a = [a] := by
  induction a with
  | nil => rfl
  | cons b a' ih =>
    have hb : b ≠ 10 := by
      intro hb
      exact ha (by rw [hb]; simp)
    rw [splitNl_cons_ne b a' hb, ih (fun hm => ha (List.mem_cons_of_mem b hm))]

lemma takeWhile_tabs (n : Nat) :
    (List.replicate n 9).takeWhile (fun x => x == 9) = List.replicate n 9 := by
  induction n with
  | zero => rfl
  | succ m ih =>
    rw [List.replicate_succ, List.takeWhile_cons]
    simp [ih]

lemma takeWhile_tabs_cons (n b : Nat) (t : List Nat) (hb : b ≠ 9) :
    ((List.replicate n 9 ++ b :: t).takeWhile (fun x => x == 9))
      = List.replicate n 9 := by
  induction n with
  | zero =>
    show ((b :: t).takeWhile (fun x => x == 9)) = []
    rw [List.takeWhile_cons]
    simp [hb]
  | succ m ih =>
    rw [List.replicate_succ, List.cons_append, List.takeWhile_cons]
    simp only [beq_self_eq_true, if_true]
    rw [ih]

/-- Every non-empty piece of the newline-split of the encoder body starts
with exactly `ind` tabs: the encoder output is a sequence of non-empty
chunk lines followed by either a run of `ind` tabs or nothing. -/
lemma lines_indent_aux (ind : Nat) :
    ∀ (chunks : List (List Nat)) (tail : List Nat),
      (∀ ch ∈ chunks, ch ≠ []) →
      (tail = List.replicate ind 9 ∨ tail = []) →
      ∀ l ∈ splitNl ((chunks.map (encodeChunk ind)).flatten ++ tail),
        l ≠ [] → (l.takeWhile (fun b => b == 9)).length = ind := by
  intro chunks
  induction chunks with
  | nil =>
    intro tail _ htail l hl hlne
    rcases htail with h | h
    · rw [h] at hl
      rw [List.map_nil, List.flatten_nil, List.nil_append,
        splitNl_no_nl _ (by
          intro hm
          have := List.eq_of_mem_replicate hm
          omega)] at hl
      simp at hl
      rw [hl, takeWhile_tabs]
      simp
    · rw [h] at hl
      show (l.takeWhile (fun b => b == 9)).length = ind
      exact absurd (by
        have : splitNl ([] : List Nat) = [[]] := rfl
        rw [List.map_nil, List.flatten_nil, List.nil_append, this] at hl
        simpa using hl) hlne
  | cons ch chs ih =>
    intro tail hne htail l hl hlne
    rcases encodeChunk_decomp ind ch (hne ch (by simp)) with
      ⟨body, hb1, hb2, t, hb3⟩
    rw [List.map_cons, List.flatten_cons, List.append_assoc, hb1,
      List.append_assoc, List.singleton_append] at hl
    rw [splitNl_append_line _ _ hb2] at hl
    rcases List.mem_cons.mp hl with h1 | h1
    · rw [h1, hb3, takeWhile_tabs_cons ind 48 t (by omega)]
      simp
    · exact ih tail (fun x hx => hne x (List.mem_cons_of_mem ch hx)) htail l
        h1 hlne

/-! Helper lemmas: every output byte is below 58 or at least 97 (in
particular no ASCII uppercase letter, 65-90, ever occurs). -/

lemma byte_range_litB (b x : Nat) (hx : x ∈ litB b) : x < 58 ∨ 97 ≤ x := by
  rcases mem_litB b x hx with h | h | ⟨n, h⟩
  · omega
  · omega
  · rcases hexChar_cases n with h2 | h2 | h2 <;> omega

lemma byte_range_chunkBody (ch : List Nat) (x : Nat) (hx : x ∈ chunkBody ch) :
    x < 58 ∨ 97 ≤ x := by
  induction ch with
  | nil => simp [chunkBody] at hx
  | cons b rest ih =>
    match rest with
    | [] =>
      have hx2 : x ∈ litB b ++ [44, 10] := hx
      rcases List.mem_append.mp hx2 with h | h
      · exact byte_range_litB b x h
      · simp at h
        omega
    | y :: t =>
      have hx2 : x ∈ litB b ++ [44, 32] ++ chunkBody (y :: t) := hx
      rcases List.mem_append.mp hx2 with h | h
      · rcases List.mem_append.mp h with h2 | h2
        · exact byte_range_litB b x h2
        · simp at h2
          omega
      · exact ih h

lemma byte_range_encodeChunk (ind : Nat) (ch : List Nat) (x : Nat)
    (hx : x ∈ encodeChunk ind ch) : x < 58 ∨ 97 ≤ x := by
  rcases List.mem_append.mp hx with h | h
  · have := List.eq_of_mem_replicate h
    omega
  · exact byte_range_chunkBody ch x h

lemma wbsOut_byte_range (c ind : Nat) (S : List Nat) (hc : 1 ≤ c) (x : Nat)
    (hx : x ∈ wbsOut c ind S) : x < 58 ∨ 97 ≤ x := by
  rw [wbsOut_eq c ind S hc] at hx
  rcases List.mem_append.mp hx with h | h
  · rcases List.mem_flatten.mp h with ⟨l, hl, hxl⟩
    rcases List.mem_map.mp hl with ⟨ch, _, hench⟩
    rw [← hench] at hxl
    exact byte_range_encodeChunk ind ch x hxl
  · by_cases hm : S.length % c = 0
    · rw [if_pos hm] at h
      have := List.eq_of_mem_replicate h
      omega
    · rw [if_neg hm] at h
      simp at h

/-! Helper lemmas about `io.ReadFull` over a fragmenting reader. -/

lemma readFrag_eq (sched : Nat → Nat) :
    ∀ fuel space k bytes, space ≤ fuel →
      ∃ k2, readFrag sched fuel space k bytes
        = (bytes.take space, k2, bytes.drop space) := by
  intro fuel
  induction fuel with
  | zero =>
    intro space k bytes h
    have hs : space = 0 := by omega
    refine ⟨k, ?_⟩
    rw [hs]
    show (([] : List Nat), k, bytes) = (bytes.take 0, k, bytes.drop 0)
    simp
  | succ f ih =>
    intro space k bytes h
    by_cases h0 : space = 0 ∨ bytes = []
    · refine ⟨k, ?_⟩
      show (if space = 0 ∨ bytes = [] then (([] : List Nat), k, bytes)
          else _) = _
      rw [if_pos h0]
      rcases h0 with h1 | h1
      · rw [h1]
        simp
      · rw [h1]
        simp
    · have hsp : space ≠ 0 := fun hh => h0 (Or.inl hh)
      have hbs : bytes ≠ [] := fun hh => h0 (Or.inr hh)
      have hlen : 1 ≤ bytes.length := List.length_pos.mpr hbs
      have hm1 : 1 ≤ fragAmount sched k space bytes := by
        unfold fragAmount
        omega
      have hmle : fragAmount sched k space bytes ≤ space := by
        unfold fragAmount
        omega
      obtain ⟨k2, hrec⟩ := ih (space - fragAmount sched k space bytes) (k + 1)
        (bytes.drop (fragAmount sched k space bytes)) (by omega)
      refine ⟨k2, ?_⟩
      show (if space = 0 ∨ bytes = [] then _ else
        (bytes.take (fragAmount sched k space bytes) ++
          (readFrag sched f (space - fragAmount sched k space bytes) (k + 1)
            (bytes.drop (fragAmount sched k space bytes))).1,
         (readFrag sched f (space - fragAmount sched k space bytes) (k + 1)
            (bytes.drop (fragAmount sched k space bytes))).2.1,
         (readFrag sched f (space - fragAmount sched k space bytes) (k + 1)
            (bytes.drop (fragAmount sched k space bytes))).2.2)) = _
      rw [if_neg h0, hrec]
      have hsum : space = fragAmount sched k space bytes +
          (space - fragAmount sched k space bytes) := by omega
      refine Prod.ext ?_ (Prod.ext rfl ?_)
      · show bytes.take (fragAmount sched k space bytes) ++
            (bytes.drop (fragAmount sched k space bytes)).take
              (space - fragAmount sched k space bytes) = bytes.take space
        conv_rhs => rw [hsum]
        rw [List.take_add]
      · show (bytes.drop (fragAmount sched k space bytes)).drop
            (space - fragAmount sched k space bytes) = bytes.drop space
        rw [List.drop_drop]
        congr 1
        omega

lemma wbsFragLoop_eq (c ind : Nat) (sched : Nat → Nat) (hc : 1 ≤ c) :
    ∀ fuel k bytes, bytes.length < fuel →
      wbsFragLoop c ind sched fuel k bytes
        = ((chunksOfL c fuel bytes).map (encodeChunk ind)).flatten
          ++ (if bytes.length % c = 0 then List.replicate ind 9 else []) := by
  intro fuel
  induction fuel with
  | zero => intro k bytes h; omega
  | succ f ih =>
    intro k bytes h
    obtain ⟨k2, hr⟩ := readFrag_eq sched c c k bytes (Nat.le_refl c)
    have step : wbsFragLoop c ind sched (f + 1) k bytes
        = if (readFrag sched c c k bytes).1.length = c ∧ 1 ≤ c then
            encodeChunk ind (readFrag sched c c k bytes).1 ++
              wbsFragLoop c ind sched f (readFrag sched c c k bytes).2.1
                (readFrag sched c c k bytes).2.2
          else encodeChunk ind (readFrag sched c c k bytes).1 := rfl
    rw [step, hr]
    by_cases hcl : c ≤ bytes.length
    · have hguard : (bytes.take c).length = c ∧ 1 ≤ c := by
        constructor
        · rw [List.length_take]
          omega
        · exact hc
      rw [if_pos hguard]
      show encodeChunk ind (bytes.take c) ++ wbsFragLoop c ind sched f k2
          (bytes.drop c) = _
      rw [ih k2 (bytes.drop c) (by simp; omega)]
      rw [chunksOfL_succ]
      have hne : bytes ≠ [] := by
        intro hb
        rw [hb] at hcl
        simp at hcl
        omega
      rw [if_neg hne]
      by_cases hlen : bytes.length ≤ c
      · have hbc : bytes.length = c := by omega
        rw [if_pos hlen]
        have hdrop : bytes.drop c = [] := by
          apply List.eq_nil_of_length_eq_zero
          simp
          omega
        have htake : bytes.take c = bytes := by
          rw [← hbc]
          exact List.take_length bytes
        rw [hdrop, htake]
        have hmod0 : bytes.length % c = 0 := by
          rw [hbc]
          exact Nat.mod_self c
        have hf : 1 ≤ f := by omega
        match f, hf with
        | g + 1, _ =>
          rw [chunksOfL_succ]
          simp [hmod0]
      · rw [if_neg hlen]
        have hmod : (bytes.drop c).length % c = bytes.length % c := by
          simp only [List.length_drop]
          conv_rhs => rw [← Nat.sub_add_cancel hcl]
          rw [Nat.add_mod_right]
        rw [hmod]
        simp [List.append_assoc]
    · have hlt : bytes.length < c := by omega
      have htk : bytes.take c = bytes := List.take_of_length_le (by omega)
      have hguard : ¬((bytes.take c).length = c ∧ 1 ≤ c) := by
        intro hcon
        rw [List.length_take] at hcon
        omega
      rw [if_neg hguard, htk]
      match bytes with
      | [] =>
        rw [chunksOfL_succ, if_pos rfl]
        simp [encodeChunk, chunkBody]
      | b :: t =>
        rw [chunksOfL_succ, if_neg (by simp), if_pos (by omega)]
        have hmodne : (b :: t).length % c ≠ 0 := by
          rw [Nat.mod_eq_of_lt hlt]
          simp
        rw [if_neg hmodne]
        simp

lemma wbsFrag_eq_wbsOut (c ind : Nat) (sched : Nat → Nat) (hc : 1 ≤ c)
    (bytes : List Nat) : wbsFrag c ind sched bytes = wbsOut c ind bytes := by
  rw [wbsFrag, wbsFragLoop_eq c ind sched hc (bytes.length + 1) 0 bytes
    (by omega), wbsOut_eq c ind bytes hc]
  rfl

/-! Helper lemmas about identifier sanitization. -/

lemma sanitizeChar_95 : sanitizeChar 95 = 95 := by decide

lemma sanitizeChar_idem (b : Nat) :
    sanitizeChar (sanitizeChar b) = sanitizeChar b := by
  by_cases h : (isLetterByte b || isDigitByte b) = true
  · simp [sanitizeChar, h]
  · simp [sanitizeChar, h]

lemma map_sanitizeChar_idem (l : List Nat) :
    (l.map sanitizeChar).map sanitizeChar = l.map sanitizeChar := by
  rw [List.map_map]
  exact List.map_congr_left (fun b _ => sanitizeChar_idem b)

lemma prepend_sanitize (x : List Nat) (hx : x ≠ []) :
    prependUnderscore (sanitize x) = sanitize x := by
  match x, hx with
  | a :: t, _ =>
    by_cases h : (isLetterByte a || a == 95) = true
    · have hp : prependUnderscore (a :: t) = a :: t := by
        show (if isLetterByte a || a == 95 then a :: t else _) = _
        rw [if_pos h]
      show prependUnderscore (sanitize (a :: t)) = sanitize (a :: t)
      rw [sanitize, hp, List.map_cons]
      have hhead : (isLetterByte (sanitizeChar a) ||
          sanitizeChar a == 95) = true := by
        rcases Bool.or_eq_true_iff.mp h with h1 | h1
        · have : sanitizeChar a = a := by simp [sanitizeChar, h1]
          rw [this, h1]
          rfl
        · have ha : a = 95 := by simpa using h1
          rw [ha, sanitizeChar_95]
          rfl
      show (if isLetterByte (sanitizeChar a) || sanitizeChar a == 95 then _
          else _) = _
      rw [if_pos hhead]
    · have hp : prependUnderscore (a :: t) = 95 :: a :: t := by
        show (if isLetterByte a || a == 95 then _ else 95 :: a :: t) = _
        rw [if_neg (by simpa using h)]
      show prependUnderscore (sanitize (a :: t)) = sanitize (a :: t)
      rw [sanitize, hp, List.map_cons, sanitizeChar_95]
      show (if isLetterByte 95 || (95 : Nat) == 95
          then 95 :: List.map sanitizeChar (a :: t)
          else 95 :: 95 :: List.map sanitizeChar (a :: t))
        = 95 :: List.map sanitizeChar (a :: t)
      rw [if_pos (by decide)]

lemma sanitize_idem (x : List Nat) (hx : x ≠ []) :
    sanitize (sanitize x) = sanitize x := by
  show (prependUnderscore (sanitize x)).map sanitizeChar = sanitize x
  rw [prepend_sanitize x hx, sanitize, map_sanitizeChar_idem]

lemma parseHex_replicate_9 (n : Nat) : parseHex (List.replicate n 9) = [] := by
  have h := parseHex_tabs n []
  rw [List.append_nil] at h
  rw [h]
  rfl

lemma openGoVar_shape (ind : Nat) (v : List Nat) :
    ∃ rest, openGoVar ind v = List.replicate (ind - 1) 9 ++ 118 :: rest := by
  have hgl : goLeft = 118 :: [97, 114, 32] := by decide
  refine ⟨[97, 114, 32] ++ ((prependUnderscore v).map sanitizeChar ++
    (goRight.take (4 + v.length + 10 - (4 + (prependUnderscore v).length))
      ++ [10])), ?_⟩
  show List.replicate (ind - 1) 9 ++
      (goLeft ++ (prependUnderscore v).map sanitizeChar ++
        goRight.take (4 + v.length + 10 - (4 + (prependUnderscore v).length)))
      ++ [10] = _
  rw [hgl]
  simp [List.append_assoc]

/-! The ten claims. -/

/-- C1: for every non-empty byte sequence `S`, columns `c ≥ 1` and indent
`ind ≥ 1`, encoding `S` with `writeByteSlice` and then parsing every
hexadecimal literal of the form `0xHH` in the output back into bytes, in
order, reconstructs exactly `S`. -/
theorem spec_c1_roundtrip (c ind : Nat) (S : List Nat) (hS : S ≠ [])
    (hc : 1 ≤ c) (hi : 1 ≤ ind) (hb : ∀ b ∈ S, b < 256) :
    parseHex (wbsOut c ind S) = S := by
  rw [wbsOut_eq c ind S hc]
  have key : ∀ (chs : List (List Nat)), (∀ ch ∈ chs, ∀ b ∈ ch, b < 256) →
      ∀ r, parseHex ((chs.map (encodeChunk ind)).flatten ++ r)
        = chs.flatten ++ parseHex r := by
    intro chs
    induction chs with
    | nil => intro _ r; rfl
    | cons ch t ih =>
      intro hh r
      rw [List.map_cons, List.flatten_cons, List.append_assoc,
        parseHex_encodeChunk ind ch (hh ch (by simp)) _,
        ih (fun x hx => hh x (List.mem_cons_of_mem ch hx)) r,
        List.flatten_cons, List.append_assoc]
  have hbytes : ∀ ch ∈ chunksOf c S, ∀ b ∈ ch, b < 256 := by
    intro ch hch b hbch
    exact hb b (chunksOfL_mem_bytes c hc (S.length + 1) S (by omega) ch hch
      b hbch)
  rw [key (chunksOf c S) hbytes _]
  have hflat : (chunksOf c S).flatten = S :=
    chunksOfL_flatten c hc (S.length + 1) S (by omega)
  rw [hflat]
  by_cases hm : S.length % c = 0
  · rw [if_pos hm, parseHex_replicate_9, List.append_nil]
  · rw [if_neg hm]
    show S ++ parseHex [] = S
    rw [show parseHex [] = [] from rfl, List.append_nil]

/-- Witness for C1 at a concrete input. -/
theorem spec_c1_roundtrip_witness :
    parseHex (wbsOut 3 1 [0, 255, 16, 171]) = [0, 255, 16, 171] :=
  spec_c1_roundtrip 3 1 [0, 255, 16, 171] (by decide) (by decide) (by decide)
    (by decide)

/-- C2 (counterexample): with columns 1, indent 1 and input `[0x00]` the
stream ends exactly at a chunk boundary after one chunk, and the claim says
no additional output of any kind is then produced, i.e. the output would be
exactly the single line `"\t0x00,\n"`; in fact the code writes the indent
tabs of the next iteration before noticing the end of stream, so a trailing
tab byte follows the last line. -/
theorem spec_c2_counterexample :
    wbsOut 1 1 [0] ≠ [9, 48, 120, 48, 48, 44, 10] ∧
      wbsOut 1 1 [0] = [9, 48, 120, 48, 48, 44, 10, 9] :=
  ⟨by decide, by decide⟩

/-- C2 (amended): for every `S` and `c ≥ 1` the body is the concatenation of
one line per chunk — every chunk except possibly the last has exactly `c`
bytes, the last has `length S mod c` bytes when that is non-zero and `c`
otherwise, and a line holds exactly one literal per byte of its chunk
(counted by the unique `'x'` of each literal) — except that when the stream
ends exactly at a chunk boundary (`c` divides `length S`, including empty
`S`) the code additionally writes `ind` tab bytes (and nothing else, in
particular no literal and no newline) after the last line. -/
theorem spec_c2_lines (c ind : Nat) (S : List Nat) (hc : 1 ≤ c) :
    wbsOut c ind S = ((chunksOf c S).map (encodeChunk ind)).flatten
        ++ (if S.length % c = 0 then List.replicate ind 9 else []) ∧
    (∀ ch ∈ (chunksOf c S).dropLast, ch.length = c) ∧
    (∀ l, (chunksOf c S).getLast? = some l →
        l.length = if S.length % c = 0 then c else S.length % c) ∧
    (∀ ch ∈ chunksOf c S, (encodeChunk ind ch).count 120 = ch.length) := by
  refine ⟨wbsOut_eq c ind S hc, ?_, ?_, ?_⟩
  · exact chunksOfL_dropLast_length c hc (S.length + 1) S (by omega)
  · exact chunksOfL_getLast_length c hc (S.length + 1) S (by omega)
  · intro ch _
    exact count_encodeChunk ind ch

/-- Witness for C2 (amended) at a concrete input. -/
theorem spec_c2_lines_witness :
    wbsOut 2 1 [1, 2, 3]
      = ((chunksOf 2 [1, 2, 3]).map (encodeChunk 1)).flatten
        ++ (if ([1, 2, 3] : List Nat).length % 2 = 0
            then List.replicate 1 9 else []) :=
  (spec_c2_lines 2 1 [1, 2, 3] (by decide)).1

/-- C3: the claim states that `openGoVar` always writes the opening brace,
also when sanitization prepends an underscore.  The code contradicts this:
the declaration buffer is sized from the name before the underscore is
prepended, so for the name `3file.txt` (whose first byte is not a letter and
not an underscore) the ten-byte tail `" = []byte\x7b"` is truncated to nine
bytes and the brace is lost, while for a name needing no underscore (such as
`gohex`) the brace is present.  This theorem evaluates the code at the
failing input. -/
theorem spec_c3_brace_truncated :
    openGoVar 1 (strBytes ("3file.txt"))
        = strBytes ("var _3file_txt = []byte\n") ∧
    openGoVar 1 (strBytes ("3file.txt"))
        ≠ strBytes ("var _3file_txt = []byte\x7b\n") ∧
    openGoVar 1 (strBytes ("gohex"))
        = strBytes ("var gohex = []byte\x7b\n") :=
  ⟨by decide, by decide, by decide⟩

/-- C4: within every emitted body line the literals are exactly the chunk's
bytes in order, consecutive literals are separated by the two bytes `", "`,
and after the last literal of the line come a comma and the newline — so the
two-byte separator `", "` never follows the last literal of a line (the
newline takes the place of the separator's space). -/
theorem spec_c4_separators (c ind : Nat) (S : List Nat) (hc : 1 ≤ c) :
    wbsOut c ind S = ((chunksOf c S).map (encodeChunk ind)).flatten
        ++ (if S.length % c = 0 then List.replicate ind 9 else []) ∧
    ∀ ch ∈ chunksOf c S,
      encodeChunk ind ch = List.replicate ind 9 ++
        List.intercalate [44, 32] (ch.map litB) ++ [44, 10] := by
  refine ⟨wbsOut_eq c ind S hc, ?_⟩
  intro ch hch
  have hne := chunksOfL_mem_ne_nil c hc (S.length + 1) S (by omega) ch hch
  show List.replicate ind 9 ++ chunkBody ch = _
  rw [chunkBody_intercalate ch hne, List.append_assoc]

/-- Witness for C4 at a concrete input. -/
theorem spec_c4_separators_witness :
    wbsOut 1 1 [7] = ((chunksOf 1 [7]).map (encodeChunk 1)).flatten
      ++ (if ([7] : List Nat).length % 1 = 0 then List.replicate 1 9
          else []) :=
  (spec_c4_separators 1 1 [7] (by decide)).1

/-- C5 (counterexample): for the empty input stream with strip false and
empty package name the claim says the whole output is exactly
`"var gohex = []byte\x7b\n\x7d\n"`; in fact the body is not empty — the
encoder writes its indent tab before noticing the end of the stream — so the
whole output is `"var gohex = []byte\x7b\n\t\x7d\n"`, with a tab before the
closing brace. -/
theorem spec_c5_counterexample :
    gohexOut 10 1 [] (strBytes ("gohex")) false []
        ≠ strBytes ("var gohex = []byte\x7b\n\x7d\n") ∧
      gohexOut 10 1 [] (strBytes ("gohex")) false []
        = strBytes ("var gohex = []byte\x7b\n\t\x7d\n") :=
  ⟨by decide, by decide⟩

/-- C5 (amended): an empty input stream produces no literal and no body
line, but the body output is not empty: `writeByteSlice` still writes `ind`
tab bytes; with strip false the declaration and closing lines are still
produced around it. -/
theorem spec_c5_empty_input (c ind : Nat) (v : List Nat) (hc : 1 ≤ c) :
    wbsOut c ind [] = List.replicate ind 9 ∧
    gohexOut c ind [] v false []
      = openGoVar ind v ++ List.replicate ind 9 ++ closeGoVar ind := by
  have h1 : wbsOut c ind [] = List.replicate ind 9 := by
    show (writeByteSlice c ind (fun _ => none) 1 [] none 0).2.1 = _
    rw [writeByteSlice_succ_stop c ind (fun _ => none) 0 [] none 0
      (by intro hcon; simp at hcon; omega)]
    show encodeChunk ind [] = _
    simp [encodeChunk, chunkBody]
  refine ⟨h1, ?_⟩
  show (if false = false ∧ ([] : List Nat) ≠ [] then declareGoPkg [] else [])
      ++ (if false = false then openGoVar ind v else [])
      ++ wbsOut c ind []
      ++ (if false = false then closeGoVar ind else [])
    = openGoVar ind v ++ List.replicate ind 9 ++ closeGoVar ind
  rw [h1]
  simp

/-- Witness for C5 (amended) at a concrete input. -/
theorem spec_c5_empty_input_witness :
    wbsOut 5 2 [] = List.replicate 2 9 ∧
    gohexOut 5 2 [] [97] false []
      = openGoVar 2 [97] ++ List.replicate 2 9 ++ closeGoVar 2 :=
  spec_c5_empty_input 5 2 [97] (by decide)

/-- C6 (counterexample): the claim says a failing write on the sink aborts
the loop and the error is returned.  The code discards every result of
`w.Write`, so with a sink whose every write call fails (here the schedule
returning error 7 on each call) `writeByteSlice` still performs all three
write calls of this run and returns nil. -/
theorem spec_c6_counterexample :
    writeByteSlice 1 1 (fun _ => some 7) 2 [0] none 0
        = (none, [9, 48, 120, 48, 48, 44, 10, 9], 3) ∧
    (fun _ => (some 7 : Option Nat)) 0 = some 7 :=
  ⟨by decide, rfl⟩

/-- C6 (amended): `writeByteSlice` returns exactly the source's terminal
condition: a read error other than end-of-stream is returned to the caller
unchanged (aborting the loop before anything further is written), and end of
stream — at a chunk boundary or mid-chunk — is never returned as an error;
write errors never influence the result, whatever the sink's failure
schedule, because the code discards every `w.Write` result. -/
theorem spec_c6_errors (c ind : Nat) (werr : Nat → Option Nat)
    (bytes : List Nat) (terminal : Option Nat) (hc : 1 ≤ c) :
    (writeByteSlice c ind werr (bytes.length + 1) bytes terminal 0).1
      = terminal :=
  writeByteSlice_fst c ind werr terminal hc (bytes.length + 1) bytes 0
    (by omega)

/-- Witness for C6 (amended) at a concrete input. -/
theorem spec_c6_errors_witness :
    (writeByteSlice 2 1 (fun _ => some 5) ([1, 2, 3].length + 1) [1, 2, 3]
        (some 42) 0).1 = some 42 :=
  spec_c6_errors 2 1 (fun _ => some 5) [1, 2, 3] (some 42) (by decide)

/-- C7: every non-empty piece of the newline-split of the body written by
`writeByteSlice` begins with exactly `ind` tab bytes, and the declaration
line of `openGoVar` and the closing line of `closeGoVar` each begin with
exactly `ind - 1` tab bytes, so the body is one indentation unit deeper than
its enclosing declaration. -/
theorem spec_c7_indent (c ind : Nat) (v S : List Nat) (hc : 1 ≤ c)
    (hi : 1 ≤ ind) (hv : v ≠ []) :
    (∀ l ∈ splitNl (wbsOut c ind S), l ≠ [] →
        (l.takeWhile (fun b => b == 9)).length = ind) ∧
    ((openGoVar ind v).takeWhile (fun b => b == 9)).length = ind - 1 ∧
    ((closeGoVar ind).takeWhile (fun b => b == 9)).length = ind - 1 := by
  refine ⟨?_, ?_, ?_⟩
  · intro l hl hlne
    rw [wbsOut_eq c ind S hc] at hl
    refine lines_indent_aux ind (chunksOf c S) _ ?_ ?_ l hl hlne
    · exact fun ch hch =>
        chunksOfL_mem_ne_nil c hc (S.length + 1) S (by omega) ch hch
    · by_cases hm : S.length % c = 0
      · rw [if_pos hm]
        exact Or.inl rfl
      · rw [if_neg hm]
        exact Or.inr rfl
  · obtain ⟨rest, hshape⟩ := openGoVar_shape ind v
    rw [hshape, takeWhile_tabs_cons (ind - 1) 118 rest (by omega)]
    simp
  · have hcl : closeGoVar ind = List.replicate (ind - 1) 9 ++ 125 :: [10] := by
      show List.replicate (ind - 1) 9 ++ strBytes ("\x7d\n") = _
      rw [show strBytes ("\x7d\n") = 125 :: [10] from by decide]
    rw [hcl, takeWhile_tabs_cons (ind - 1) 125 [10] (by omega)]
    simp

/-- Witness for C7 at a concrete input. -/
theorem spec_c7_indent_witness :
    ((openGoVar 2 [97]).takeWhile (fun b => b == 9)).length = 2 - 1 :=
  (spec_c7_indent 1 2 [97] [5] (by decide) (by decide) (by decide)).2.1

/-- C8: the identifier sanitization of `openGoVar` is idempotent: for every
non-empty byte string `x`, sanitizing twice equals sanitizing once. -/
theorem spec_c8_sanitize_idem (x : List Nat) (hx : x ≠ []) :
    sanitize (sanitize x) = sanitize x :=
  sanitize_idem x hx

/-- Witness for C8 at a concrete input. -/
theorem spec_c8_sanitize_idem_witness :
    sanitize (sanitize (strBytes ("3file.txt")))
      = sanitize (strBytes ("3file.txt")) :=
  spec_c8_sanitize_idem (strBytes ("3file.txt")) (by decide)

/-- C9: every input byte `b < 256` is rendered as exactly the four bytes
`'0'`, `'x'` and two hexadecimal digits which are lowercase (`0`-`9`,
`a`-`f`) and decode back to `b` (so a leading zero is kept: byte 0 renders as
`0x00`), and no ASCII uppercase letter — in particular no uppercase hex
digit — ever occurs anywhere in the output of `writeByteSlice`. -/
theorem spec_c9_hex_rendering (b : Nat) (hb : b < 256) :
    litB b = [48, 120, hexChar (b / 16), hexChar (b % 16)] ∧
    isLowerHexDigit (hexChar (b / 16)) = true ∧
    isLowerHexDigit (hexChar (b % 16)) = true ∧
    hexVal (hexChar (b / 16)) * 16 + hexVal (hexChar (b % 16)) = b ∧
    litB 0 = [48, 120, 48, 48] ∧
    (∀ c ind S x, 1 ≤ c → x ∈ wbsOut c ind S → ¬(65 ≤ x ∧ x ≤ 90)) := by
  have h16a : b / 16 < 16 := by omega
  have h16b : b % 16 < 16 := by omega
  have hlow : ∀ n, n < 16 → isLowerHexDigit (hexChar n) = true := by decide
  refine ⟨rfl, hlow _ h16a, hlow _ h16b, ?_, by decide, ?_⟩
  · rw [hexVal_hexChar _ h16a, hexVal_hexChar _ h16b]
    omega
  · intro c ind S x hc hx hcon
    rcases wbsOut_byte_range c ind S hc x hx with h | h <;> omega

/-- Witness for C9 at a concrete input. -/
theorem spec_c9_hex_rendering_witness :
    hexVal (hexChar (171 / 16)) * 16 + hexVal (hexChar (171 % 16)) = 171 :=
  (spec_c9_hex_rendering 171 (by decide)).2.2.2.1

/-- C10: for columns `c ≥ 1`, the output of `writeByteSlice` over a source
that fragments its reads according to any schedule equals the output over
the plain byte sequence — `io.ReadFull` assembles every non-final chunk to
exactly `c` bytes — so two sources delivering the same bytes with different
read fragmentation produce byte-identical output. -/
theorem spec_c10_fragmentation (c ind : Nat) (sched1 sched2 : Nat → Nat)
    (bytes : List Nat) (hc : 1 ≤ c) :
    wbsFrag c ind sched1 bytes = wbsOut c ind bytes ∧
    wbsFrag c ind sched1 bytes = wbsFrag c ind sched2 bytes := by
  refine ⟨wbsFrag_eq_wbsOut c ind sched1 hc bytes, ?_⟩
  rw [wbsFrag_eq_wbsOut c ind sched1 hc bytes,
    wbsFrag_eq_wbsOut c ind sched2 hc bytes]

/-- Witness for C10 at a concrete input. -/
theorem spec_c10_fragmentation_witness :
    wbsFrag 2 1 (fun _ => 1) [1, 2, 3, 4, 5]
      = wbsFrag 2 1 (fun k => k + 3) [1, 2, 3, 4, 5] :=
  (spec_c10_fragmentation 2 1 (fun _ => 1) (fun k => k + 3) [1, 2, 3, 4, 5]
    (by decide)).2

end Gohex
